import Mathlib

/-!
Shallow embedding of the cluster-addressed container extractor
(extract360.py) and proofs about its core algorithms: the cluster-address
correction, the chunked file reader, the directory-record scanner, the
hash-table scan, content-type classification and metadata text stripping.
-/

namespace Extract360

/-- Embedding of the loop of `get_cluster(startclust, offset)`:
`while startclust >= 170: startclust //= 170; rst += (startclust + 1) * offset`.
Note the accumulated term uses the already-divided value of `startclust`. -/
def get_cluster_loop (startclust rst offset : Nat) : Nat :=
  if 170 ≤ startclust then
    get_cluster_loop (startclust / 170) (rst + (startclust / 170 + 1) * offset) offset
  else rst
termination_by startclust
decreasing_by
  exact Nat.div_lt_self (by omega) (by omega)

/-- Embedding of `get_cluster` from extract360.py: the cluster-address
correction, starting from accumulator `rst = 0`. -/
def get_cluster (startclust offset : Nat) : Nat :=
  get_cluster_loop startclust 0 offset

/-- Second definition following the spec words (for comparison with
`get_cluster`): the literal recursive form of the correction — while
`c ≥ 170`, replace `c` by `c / 170` and add `(c + 1) * s`. -/
def correctionSpec (c s : Nat) : Nat :=
  if 170 ≤ c then (c / 170 + 1) * s + correctionSpec (c / 170) s else 0
termination_by c
decreasing_by
  exact Nat.div_lt_self (by omega) (by omega)

/-- Fuel-indexed version of the `get_cluster` loop, returning `none` when
the fuel runs out before the loop condition fails. -/
def get_clusterFuel : Nat → Nat → Nat → Nat → Option Nat
  | 0, startclust, rst, _ => if 170 ≤ startclust then none else some rst
  | fuel + 1, startclust, rst, offset =>
    if 170 ≤ startclust then
      get_clusterFuel fuel (startclust / 170) (rst + (startclust / 170 + 1) * offset) offset
    else some rst

theorem get_cluster_loop_eq (c : Nat) :
    ∀ r s, get_cluster_loop c r s = r + correctionSpec c s := by
  induction c using Nat.strong_induction_on with
  | _ c ih =>
    intro r s
    rw [get_cluster_loop, correctionSpec]
    by_cases h : 170 ≤ c
    · simp only [h, if_true]
      rw [ih (c / 170) (Nat.div_lt_self (by omega) (by omega))]
      ring
    · simp [h]

theorem get_clusterFuel_sufficient (c : Nat) :
    ∀ fuel, c ≤ fuel → ∀ r s,
      get_clusterFuel fuel c r s = some (get_cluster_loop c r s) := by
  induction c using Nat.strong_induction_on with
  | _ c ih =>
    intro fuel hle r s
    match fuel with
    | 0 =>
      have hc : c = 0 := by omega
      subst hc
      rw [get_cluster_loop]
      simp [get_clusterFuel]
    | f + 1 =>
      rw [get_cluster_loop]
      by_cases h : 170 ≤ c
      · simp only [get_clusterFuel, h, if_true]
        exact ih (c / 170) (Nat.div_lt_self (by omega) (by omega)) f
          (by have := Nat.div_lt_self (show 0 < c by omega) (show 1 < 170 by omega); omega)
          _ s
      · simp [get_clusterFuel, h]

theorem get_cluster_340 (s : Nat) : get_cluster 340 s = 3 * s := by
  have h1 : get_cluster 340 s = 0 + correctionSpec 340 s := get_cluster_loop_eq 340 0 s
  rw [h1]
  rw [correctionSpec]
  norm_num
  rw [correctionSpec]
  norm_num

/-- C1: for every logical cluster `c` and block step `s`, `get_cluster`
equals the literal recursive correction; it is `0` whenever `c < 170`,
and equals `2 * s` at `c = 170`. -/
theorem get_cluster_spec (c s : Nat) :
    get_cluster c s = correctionSpec c s
    ∧ (c < 170 → get_cluster c s = 0)
    ∧ get_cluster 170 s = 2 * s := by
  refine ⟨?_, ?_, ?_⟩
  · have := get_cluster_loop_eq c 0 s
    simpa [get_cluster] using this
  · intro h
    rw [get_cluster, get_cluster_loop]
    simp [show ¬ 170 ≤ c by omega]
  · have h1 : get_cluster 170 s = 0 + correctionSpec 170 s := get_cluster_loop_eq 170 0 s
    rw [h1, correctionSpec]
    norm_num
    rw [correctionSpec]
    norm_num

/-- Witness for C1 at a concrete input below the band boundary. -/
theorem get_cluster_spec_witness : get_cluster 169 3 = 0 :=
  (get_cluster_spec 169 3).2.1 (by omega)

/-- C2 counterexample: at logical cluster 340 with block step 1 the
correction is 3, not `2 * 1`. -/
theorem get_cluster_340_cex : get_cluster 340 1 ≠ 2 * 1 := by
  rw [get_cluster_340 1]
  omega

/-- C2 (amended): for every block step `s`, the correction of logical
cluster 340 is `3 * s` (one loop iteration: 340 / 170 = 2, adds (2+1)*s). -/
theorem get_cluster_340_amended (s : Nat) : get_cluster 340 s = 3 * s :=
  get_cluster_340 s

/-- C10: the `get_cluster` loop terminates: fuel `c + 1` always suffices
and yields `get_cluster c s`; moreover each iteration strictly decreases
the cluster value. -/
theorem get_cluster_terminates (c s : Nat) :
    get_clusterFuel (c + 1) c 0 s = some (get_cluster c s)
    ∧ ∀ c', 170 ≤ c' → c' / 170 < c' := by
  constructor
  · exact get_clusterFuel_sufficient c (c + 1) (by omega) 0 s
  · intro c' h
    exact Nat.div_lt_self (by omega) (by omega)

/-- Witness for C10 at a concrete input past the band boundary. -/
theorem get_cluster_terminates_witness :
    get_clusterFuel 341 340 0 7 = some (get_cluster 340 7) ∧ 340 / 170 < 340 :=
  ⟨(get_cluster_terminates 340 7).1, (get_cluster_terminates 340 7).2 340 (by omega)⟩

/-- Embedding of the block-reading loop of `fill_directory`:
`while filelen > 0: realstart = adstart + get_cluster(startclust, offset);
read min(0x1000, filelen) at realstart; startclust += 1; adstart += 0x1000;
filelen -= 0x1000`.  Returns the list of `(offset, size)` chunk reads
issued, in order. -/
def readFileChunks (adstart : Int) (startclust : Nat) (filelen : Int) (offset : Nat) :
    List (Int × Int) :=
  if 0 < filelen then
    (adstart + (get_cluster startclust offset : Int), min 0x1000 filelen) ::
      readFileChunks (adstart + 0x1000) (startclust + 1) (filelen - 0x1000) offset
  else []
termination_by filelen.toNat
decreasing_by
  simp_wf
  omega

theorem readFileChunks_nil_iff (adstart : Int) (startclust : Nat) (filelen : Int)
    (offset : Nat) :
    readFileChunks adstart startclust filelen offset = [] ↔ filelen ≤ 0 := by
  rw [readFileChunks]
  by_cases h : 0 < filelen
  · simp [h]
  · simp [h]; omega

theorem getLast_cons_of_ne_nil {α : Type} (a : α) (l : List α) (h : l ≠ []) :
    (a :: l).getLast? = l.getLast? := by
  cases l with
  | nil => exact absurd rfl h
  | cons b t => rfl

theorem readFileChunks_step (adstart : Int) (startclust : Nat) (L : Int) (offset : Nat)
    (h : 0 < L) :
    readFileChunks adstart startclust L offset =
      (adstart + (get_cluster startclust offset : Int), min 0x1000 L) ::
        readFileChunks (adstart + 0x1000) (startclust + 1) (L - 0x1000) offset := by
  rw [readFileChunks, if_pos h]

theorem readFileChunks_full (k : Nat) :
    ∀ (adstart : Int) (startclust offset : Nat),
      (readFileChunks adstart startclust (0x1000 * k) offset).length = k
      ∧ (1 ≤ k →
          ((readFileChunks adstart startclust (0x1000 * k) offset).map Prod.snd).getLast?
            = some 0x1000) := by
  induction k with
  | zero =>
    intro adstart startclust offset
    rw [readFileChunks]
    norm_num
  | succ k ih =>
    intro adstart startclust offset
    have e : (0x1000 * ((k + 1 : Nat) : Int)) = 0x1000 * (k : Int) + 0x1000 := by
      push_cast; ring
    have hk : (0 : Int) ≤ (k : Int) := Int.natCast_nonneg k
    have hL : (0 : Int) < 0x1000 * ((k + 1 : Nat) : Int) := by rw [e]; nlinarith
    rw [readFileChunks_step _ _ _ _ hL, e]
    have e2 : (0x1000 * (k : Int) + 0x1000 - 0x1000) = 0x1000 * (k : Int) := by ring
    rw [e2]
    have hmin : min (0x1000 : Int) (0x1000 * (k : Int) + 0x1000) = 0x1000 := by
      rw [min_eq_left]
      nlinarith
    constructor
    · simpa using (ih (adstart + 0x1000) (startclust + 1) offset).1
    · intro _
      cases k with
      | zero =>
        rw [show (0x1000 * ((0 : Nat) : Int)) = 0 from by norm_num, readFileChunks]
        norm_num
      | succ n =>
        have hne : readFileChunks (adstart + 0x1000) (startclust + 1)
            (0x1000 * ((n + 1 : Nat) : Int)) offset ≠ [] := by
          intro hnil
          rw [readFileChunks_nil_iff] at hnil
          have hn : (0 : Int) ≤ (n : Int) := Int.natCast_nonneg n
          push_cast at hnil
          nlinarith
        rw [List.map_cons,
          getLast_cons_of_ne_nil _ _ (by simpa using hne)]
        exact (ih (adstart + 0x1000) (startclust + 1) offset).2 (by omega)

theorem readFileChunks_short (k : Nat) :
    ∀ (r adstart : Int) (startclust offset : Nat), 0 < r → r < 0x1000 →
      (readFileChunks adstart startclust (0x1000 * k + r) offset).length = k + 1
      ∧ ((readFileChunks adstart startclust (0x1000 * k + r) offset).map Prod.snd).getLast?
          = some r := by
  induction k with
  | zero =>
    intro r adstart startclust offset hr hr'
    have e : (0x1000 * ((0 : Nat) : Int) + r) = r := by push_cast; ring
    rw [e, readFileChunks_step _ _ _ _ hr, readFileChunks]
    rw [if_neg (by omega)]
    rw [min_eq_right (by omega)]
    norm_num
  | succ k ih =>
    intro r adstart startclust offset hr hr'
    have hk : (0 : Int) ≤ (k : Int) := Int.natCast_nonneg k
    have e : (0x1000 * ((k + 1 : Nat) : Int) + r) = (0x1000 * (k : Int) + r) + 0x1000 := by
      push_cast; ring
    have hL : (0 : Int) < 0x1000 * ((k + 1 : Nat) : Int) + r := by rw [e]; nlinarith
    rw [readFileChunks_step _ _ _ _ hL, e]
    have e2 : (0x1000 * (k : Int) + r) + 0x1000 - 0x1000 = 0x1000 * (k : Int) + r := by ring
    rw [e2]
    have hmin : min (0x1000 : Int) ((0x1000 * (k : Int) + r) + 0x1000) = 0x1000 := by
      rw [min_eq_left]
      nlinarith
    have htail := ih r (adstart + 0x1000) (startclust + 1) offset hr hr'
    constructor
    · simpa using htail.1
    · have hne : readFileChunks (adstart + 0x1000) (startclust + 1)
          (0x1000 * (k : Int) + r) offset ≠ [] := by
        intro hnil
        rw [readFileChunks_nil_iff] at hnil
        nlinarith
      rw [List.map_cons,
        getLast_cons_of_ne_nil _ _ (by simpa using hne)]
      exact htail.2

/-- C3: the chunked file reader issues, for length `0x1000 * k` (k ≥ 1),
exactly `k` reads the last of which has full size `0x1000`; for length
`0x1000 * k + r` with `0 < r < 0x1000` it issues `k + 1` reads the last of
size `r`; and it issues no read exactly when the remaining length is ≤ 0. -/
theorem fileBlockReader_chunks (k : Nat) (r adstart : Int) (startclust offset : Nat)
    (L : Int) :
    (1 ≤ k →
      (readFileChunks adstart startclust (0x1000 * k) offset).length = k
      ∧ ((readFileChunks adstart startclust (0x1000 * k) offset).map Prod.snd).getLast?
          = some 0x1000)
    ∧ (0 < r → r < 0x1000 →
      (readFileChunks adstart startclust (0x1000 * k + r) offset).length = k + 1
      ∧ ((readFileChunks adstart startclust (0x1000 * k + r) offset).map Prod.snd).getLast?
          = some r)
    ∧ (readFileChunks adstart startclust L offset = [] ↔ L ≤ 0) := by
  refine ⟨fun hk => ⟨(readFileChunks_full k adstart startclust offset).1, ?_⟩,
    fun hr hr' => readFileChunks_short k r adstart startclust offset hr hr',
    readFileChunks_nil_iff adstart startclust L offset⟩
  exact (readFileChunks_full k adstart startclust offset).2 hk

/-- Witness for C3 at `k = 2`, `r = 5`. -/
theorem fileBlockReader_chunks_witness :
    (readFileChunks 0 0 (0x1000 * 2) 1).length = 2
    ∧ (readFileChunks 0 0 (0x1000 * 2 + 5) 1).length = 3
    ∧ readFileChunks 0 0 (-1) 1 = [] :=
  ⟨((fileBlockReader_chunks 2 5 0 0 1 (-1)).1 (by omega)).1,
   ((fileBlockReader_chunks 2 5 0 0 1 (-1)).2.1 (by omega) (by omega)).1,
   (fileBlockReader_chunks 2 5 0 0 1 (-1)).2.2.mpr (by omega)⟩

/-! Directory records: 64-byte entries decoded by `fill_directory` with
`struct.unpack("<40sBHBHBHB", cur[0:50])` and `struct.unpack(">HLLL", cur[50:64])`,
with the three 24-bit fields assembled as `low16 + high8 << 16`. -/

/-- Decoded fields of one 64-byte directory record. -/
structure DirRecord where
  name : List Nat
  namelen : Nat
  clustsize1 : Nat
  clustsize2 : Nat
  startclust : Nat
  pathind : Nat
  filelen : Nat
  dati1 : Nat
  dati2 : Nat

/-- Byte `i` of a byte list (bytes are 0..255 in actual records). -/
def byteAt (cur : List Nat) (i : Nat) : Nat := cur.getD i 0

/-- Decoding of one 64-byte record, following the two `struct.unpack` calls
in `fill_directory`: name bytes 0..39, namelen byte 40, three little-endian
24-bit fields (low 16 bits then high 8 bits), then big-endian path index,
file length, and the two packed timestamps. -/
def decodeRecord (cur : List Nat) : DirRecord :=
  { name := cur.take 40
    namelen := byteAt cur 40
    clustsize1 := (byteAt cur 41 + byteAt cur 42 * 0x100) + byteAt cur 43 * 0x10000
    clustsize2 := (byteAt cur 44 + byteAt cur 45 * 0x100) + byteAt cur 46 * 0x10000
    startclust := (byteAt cur 47 + byteAt cur 48 * 0x100) + byteAt cur 49 * 0x10000
    pathind := byteAt cur 50 * 0x100 + byteAt cur 51
    filelen := ((byteAt cur 52 * 0x1000000 + byteAt cur 53 * 0x10000) + byteAt cur 54 * 0x100)
      + byteAt cur 55
    dati1 := ((byteAt cur 56 * 0x1000000 + byteAt cur 57 * 0x10000) + byteAt cur 58 * 0x100)
      + byteAt cur 59
    dati2 := ((byteAt cur 60 * 0x1000000 + byteAt cur 61 * 0x10000) + byteAt cur 62 * 0x100)
      + byteAt cur 63 }

/-- Reasons for which `fill_directory` skips a record, in the order the
checks appear in the source. -/
inductive SkipReason where
  | nameLenOutOfRange
  | clusterSizeMismatch
  | startClusterZero
  | fileLenTooBig
deriving DecidableEq

/-- Outcome of the validation of one record during the scan. -/
inductive RecordOutcome where
  | skipped (reason : SkipReason)
  | materialized
deriving DecidableEq

/-- Validation sequence of `fill_directory` for one decoded record (with
materialization enabled): effective name length (`namelen & ~0xC0` on a
byte, i.e. the top two bits masked off) must be in [1, 40]; the redundant
cluster sizes must match; a file record (`namelen & 0x80 == 0`) must have
starting cluster ≥ 1; the file length must not exceed `0x1000 * clustsize1`.
Each violation skips just this record and the scan continues. -/
def effNameLen (namelen : Nat) : Nat := namelen &&& 0x3F

def processRecord (r : DirRecord) : RecordOutcome :=
  if effNameLen r.namelen < 1 ∨ 40 < effNameLen r.namelen then
    RecordOutcome.skipped SkipReason.nameLenOutOfRange
  else if r.clustsize1 ≠ r.clustsize2 then RecordOutcome.skipped SkipReason.clusterSizeMismatch
  else if r.startclust < 1 ∧ r.namelen &&& 0x80 = 0 then
    RecordOutcome.skipped SkipReason.startClusterZero
  else if 0x1000 * r.clustsize1 < r.filelen then RecordOutcome.skipped SkipReason.fileLenTooBig
  else RecordOutcome.materialized

/-- Per-record outcomes of a scan over a list of decoded records: one
outcome per record, the scan never aborts. -/
def processOutcomes : List DirRecord → List RecordOutcome
  | [] => []
  | r :: rs => processRecord r :: processOutcomes rs

theorem processOutcomes_length (rs : List DirRecord) :
    (processOutcomes rs).length = rs.length := by
  induction rs with
  | nil => rfl
  | cons r rs ih => simp [processOutcomes, ih]

/-- C6: a decoded record is materialized exactly when it violates none of
the four invariants (cluster-size mismatch, effective name length outside
[1,40], file record with starting cluster < 1, file length above
`0x1000 * clustsize1`); any violation only skips that record, and the scan
produces one outcome per record, never aborting. -/
theorem fill_directory_skip_semantics (r : DirRecord) :
    (processRecord r = RecordOutcome.materialized ↔
      ¬ (r.clustsize1 ≠ r.clustsize2
        ∨ effNameLen r.namelen < 1 ∨ 40 < effNameLen r.namelen
        ∨ (r.namelen &&& 0x80 = 0 ∧ r.startclust < 1)
        ∨ 0x1000 * r.clustsize1 < r.filelen))
    ∧ ∀ rs : List DirRecord, (processOutcomes rs).length = rs.length := by
  refine ⟨?_, processOutcomes_length⟩
  constructor
  · intro h
    unfold processRecord at h
    split_ifs at h with h1 h2 h3 h4
    intro hdisj
    rcases hdisj with hx | hx | hx | hx | hx
    · exact h2 hx
    · exact h1 (Or.inl hx)
    · exact h1 (Or.inr hx)
    · exact h3 ⟨hx.2, hx.1⟩
    · exact h4 hx
  · intro hn
    push_neg at hn
    obtain ⟨hn1, hn2, hn3, hn4, hn5⟩ := hn
    unfold processRecord
    rw [if_neg (by omega), if_neg (by tauto),
      if_neg (by intro hx; have := hn4 hx.2; omega), if_neg (by omega)]

/-! Directory scan bound and end sentinel: `fill_directory` iterates
`for i in range(0x1000 * firstclust // 64)` and breaks at the first record
whose byte 40 (`cur[40]`, the raw name-length byte) is 0. -/

/-- Raw 64-byte chunk of record `j` of the directory blob. -/
def dirChunk (contents : List Nat) (j : Nat) : List Nat :=
  (contents.drop (j * 64)).take 64

/-- Raw name-length byte (byte 40) of record `j`. -/
def nameLenByte (contents : List Nat) (j : Nat) : Nat :=
  byteAt (dirChunk contents j) 40

/-- Record limit of the scan: `0x1000 * firstclust // 64`. -/
def dirLimit (firstclust : Nat) : Nat := 0x1000 * firstclust / 64

/-- The scan loop: processes records from index `i` while fuel (the
remaining loop range) lasts, stopping at the first record whose raw
name-length byte is 0.  Returns the raw chunks examined past the sentinel
check. -/
def dirRecordsGo (contents : List Nat) : Nat → Nat → List (List Nat)
  | 0, _ => []
  | fuel + 1, i =>
    if nameLenByte contents i = 0 then []
    else dirChunk contents i :: dirRecordsGo contents fuel (i + 1)

/-- Records examined by the directory scan of `fill_directory`. -/
def dirRecords (contents : List Nat) (firstclust : Nat) : List (List Nat) :=
  dirRecordsGo contents (dirLimit firstclust) 0

theorem dirRecordsGo_spec (contents : List Nat) :
    ∀ fuel i,
      (dirRecordsGo contents fuel i).length ≤ fuel
      ∧ (∀ j, j < (dirRecordsGo contents fuel i).length →
          nameLenByte contents (i + j) ≠ 0
          ∧ (dirRecordsGo contents fuel i).getD j [] = dirChunk contents (i + j))
      ∧ ((dirRecordsGo contents fuel i).length < fuel →
          nameLenByte contents (i + (dirRecordsGo contents fuel i).length) = 0) := by
  intro fuel
  induction fuel with
  | zero =>
    intro i
    simp [dirRecordsGo]
  | succ fuel ih =>
    intro i
    by_cases h : nameLenByte contents i = 0
    · refine ⟨?_, ?_, ?_⟩ <;> simp [dirRecordsGo, h]
    · have ihs := ih (i + 1)
      refine ⟨?_, ?_, ?_⟩
      · simp only [dirRecordsGo, h, if_false]
        simpa using ihs.1
      · intro j hj
        simp only [dirRecordsGo, h, if_false] at hj ⊢
        match j with
        | 0 => simpa using h
        | j + 1 =>
          simp only [List.length_cons] at hj
          have := ihs.2.1 j (by omega)
          constructor
          · have e : i + (j + 1) = (i + 1) + j := by omega
            rw [e]
            exact this.1
          · have e : i + (j + 1) = (i + 1) + j := by omega
            rw [e]
            simpa using this.2
      · intro hlt
        simp only [dirRecordsGo, h, if_false] at hlt ⊢
        simp only [List.length_cons] at hlt ⊢
        have := ihs.2.2 (by omega)
        have e : i + ((dirRecordsGo contents fuel (i + 1)).length + 1)
            = (i + 1) + (dirRecordsGo contents fuel (i + 1)).length := by omega
        rw [e]
        exact this

/-- C7: the directory scan examines at most `0x1000 * firstclust / 64`
records; every record it examines has a nonzero raw name-length byte and is
the corresponding 64-byte chunk of the blob, and if the scan stops before
the limit then the next record's raw name-length byte is 0 — so the first
zero-byte record and everything after it is never processed. -/
theorem fill_directory_scan_bound (contents : List Nat) (firstclust : Nat) :
    (dirRecords contents firstclust).length ≤ dirLimit firstclust
    ∧ (∀ j, j < (dirRecords contents firstclust).length →
        nameLenByte contents j ≠ 0
        ∧ (dirRecords contents firstclust).getD j [] = dirChunk contents j)
    ∧ ((dirRecords contents firstclust).length < dirLimit firstclust →
        nameLenByte contents ((dirRecords contents firstclust).length) = 0) := by
  have h := dirRecordsGo_spec contents (dirLimit firstclust) 0
  refine ⟨h.1, ?_, ?_⟩
  · intro j hj
    have := h.2.1 j hj
    simpa using this
  · intro hlt
    have := h.2.2 hlt
    simpa using this

/-- Concrete directory blob for the C7 witness: record 0 has name-length
byte 1, record 1 is the all-zero end sentinel. -/
def contentsC7 : List Nat :=
  List.replicate 40 0 ++ [1] ++ List.replicate 23 0 ++ List.replicate 64 0

/-- Witness for C7: on `contentsC7` with `firstclust = 1` the scan
processes exactly record 0 and stops at the sentinel record 1. -/
theorem fill_directory_scan_bound_witness :
    nameLenByte contentsC7 0 ≠ 0 ∧ nameLenByte contentsC7 1 = 0 :=
  ⟨((fill_directory_scan_bound contentsC7 1).2.1 0 (by decide)).1,
   (fill_directory_scan_bound contentsC7 1).2.2 (by decide)⟩

/-! Content-type classification: the if/elif chain of `write_common_part`,
testing the 32-bit content type against fixed bit patterns in source order
and emitting the label of the first test that fires. -/

/-- The if/elif chain of `write_common_part` classifying `content_type`. -/
def classifyContentType (c : Nat) : String :=
  if c = 0 then "(no type)"
  else if c &&& 0x00000001 ≠ 0 then "Game save"
  else if c &&& 0x00000002 ≠ 0 then "Game add-on"
  else if c &&& 0x00030000 ≠ 0 then "Theme"
  else if c &&& 0x00090000 ≠ 0 then "Video clip"
  else if c &&& 0x000C0000 ≠ 0 then "Game trailer"
  else if c &&& 0x000D0000 ≠ 0 then "XBox Live Arcade"
  else if c &&& 0x00010000 ≠ 0 then "Gamer profile"
  else if c &&& 0x00020000 ≠ 0 then "Gamer picture"
  else if c &&& 0x00040000 ≠ 0 then "System update"
  else if c &&& 0x00080000 ≠ 0 then "Full game demo"
  else "(unknown)"

/-- The ordered table of content-type tests, as the spec lists them. -/
def contentTypeTests : List ((Nat → Bool) × String) :=
  [(fun c => c == 0, "(no type)"),
   (fun c => c &&& 0x00000001 != 0, "Game save"),
   (fun c => c &&& 0x00000002 != 0, "Game add-on"),
   (fun c => c &&& 0x00030000 != 0, "Theme"),
   (fun c => c &&& 0x00090000 != 0, "Video clip"),
   (fun c => c &&& 0x000C0000 != 0, "Game trailer"),
   (fun c => c &&& 0x000D0000 != 0, "XBox Live Arcade"),
   (fun c => c &&& 0x00010000 != 0, "Gamer profile"),
   (fun c => c &&& 0x00020000 != 0, "Gamer picture"),
   (fun c => c &&& 0x00040000 != 0, "System update"),
   (fun c => c &&& 0x00080000 != 0, "Full game demo")]

/-- Label of the first test of the table that fires, "(unknown)" if none. -/
def firstMatchLabel : List ((Nat → Bool) × String) → Nat → String
  | [], _ => "(unknown)"
  | t :: rest, c => if t.1 c then t.2 else firstMatchLabel rest c

/-- C5: classification returns the label of the first test in the fixed
table order that intersects the value, and content type 0x000B0000
classifies as "Theme" (the 0x00030000 test fires before the video-clip and
full-game-demo tests). -/
theorem contentType_first_match (c : Nat) :
    classifyContentType c = firstMatchLabel contentTypeTests c
    ∧ classifyContentType 0x000B0000 = "Theme" := by
  constructor
  · simp only [classifyContentType, contentTypeTests, firstMatchLabel,
      bne_iff_ne, beq_iff_eq, ne_eq]
  · decide

/-! Metadata text stripping: `strip_blanks` does
`instring.rstrip("\0 \t\n\r\v\f\377").lstrip(" \t\n\r\v\f\377")` — note the
NUL is only in the rstrip set — and `dump_info` writes a slot only when the
stripped text is nonempty. -/

/-- Characters removed from the end by `strip_blanks` (the rstrip set). -/
def rstripBlanksSet : List Char := ['\x00', ' ', '\t', '\n', '\r', '\x0B', '\x0C', '\xFF']

/-- Characters removed from the beginning by `strip_blanks` (the lstrip
set; it does not contain NUL). -/
def lstripBlanksSet : List Char := [' ', '\t', '\n', '\r', '\x0B', '\x0C', '\xFF']

/-- Embedding of `strip_blanks`: rstrip with `rstripBlanksSet`, then lstrip
with `lstripBlanksSet`. -/
def strip_blanks (s : List Char) : List Char :=
  ((s.reverse.dropWhile (fun c => rstripBlanksSet.contains c)).reverse).dropWhile
    (fun c => lstripBlanksSet.contains c)

/-- Second definition following the claim words (for comparison with
`strip_blanks`): all eight padding characters, NUL included, stripped from
both the beginning and the end. -/
def stripBlanksClaim (s : List Char) : List Char :=
  ((s.reverse.dropWhile (fun c => rstripBlanksSet.contains c)).reverse).dropWhile
    (fun c => rstripBlanksSet.contains c)

/-- The slot loop of `dump_info`: for each 0x100-byte slot in order, write
`(language index, stripped text)` only when the stripped text is nonempty. -/
def dumpInfoGo : Nat → List (List Char) → List (Nat × List Char)
  | _, [] => []
  | i, s :: rest =>
    (if 0 < (strip_blanks s).length then [(i, strip_blanks s)] else [])
      ++ dumpInfoGo (i + 1) rest

/-- Entries written by `dump_info` for a list of decoded text slots. -/
def dump_info_writes (slots : List (List Char)) : List (Nat × List Char) :=
  dumpInfoGo 0 slots

theorem dropWhile_headq {α : Type} (p : α → Bool) (l : List α) :
    ∀ c, (l.dropWhile p).head? = some c → p c = false := by
  induction l with
  | nil => intro c h; simp [List.dropWhile] at h
  | cons a t ih =>
    intro c h
    by_cases hp : p a
    · rw [List.dropWhile_cons_of_pos hp] at h
      exact ih c h
    · rw [List.dropWhile_cons_of_neg hp] at h
      simp only [List.head?_cons, Option.some.injEq] at h
      subst h
      simpa using hp

theorem dropWhile_eq_suffix {α : Type} (p : α → Bool) (l : List α) :
    ∃ u, u ++ l.dropWhile p = l := by
  induction l with
  | nil => exact ⟨[], rfl⟩
  | cons a t ih =>
    by_cases hp : p a
    · obtain ⟨u, hu⟩ := ih
      exact ⟨a :: u, by rw [List.dropWhile_cons_of_pos hp]; simpa using hu⟩
    · exact ⟨[], by rw [List.dropWhile_cons_of_neg hp]; rfl⟩

theorem suffix_getLastq {α : Type} (u l : List α) (c : α)
    (h : l.getLast? = some c) : (u ++ l).getLast? = some c := by
  induction u with
  | nil => simpa using h
  | cons a t ih =>
    have hne : t ++ l ≠ [] := by
      intro hx
      rcases List.append_eq_nil.mp hx with ⟨_, hl⟩
      subst hl
      simp at h
    rw [List.cons_append, getLast_cons_of_ne_nil _ _ hne]
    exact ih

theorem dumpInfoGo_mem (slots : List (List Char)) :
    ∀ j i t, (i, t) ∈ dumpInfoGo j slots →
      t ≠ [] ∧ ∃ u ∈ slots, t = strip_blanks u := by
  induction slots with
  | nil => intro j i t h; simp [dumpInfoGo] at h
  | cons s rest ih =>
    intro j i t h
    simp only [dumpInfoGo, List.mem_append] at h
    rcases h with h | h
    · by_cases hl : 0 < (strip_blanks s).length
      · rw [if_pos hl] at h
        simp only [List.mem_singleton, Prod.mk.injEq] at h
        obtain ⟨_, ht⟩ := h
        subst ht
        refine ⟨?_, s, List.mem_cons_self s rest, rfl⟩
        intro hx
        rw [hx] at hl
        simp at hl
      · rw [if_neg hl] at h
        simp at h
    · obtain ⟨hne, u, hu, ht⟩ := ih (j + 1) i t h
      exact ⟨hne, u, List.mem_cons_of_mem _ hu, ht⟩

/-- C9 counterexample: on the slot text `"\x00a"` the code keeps the
leading NUL, while stripping NUL from both ends (as the claim states)
would give `"a"`. -/
theorem strip_blanks_cex :
    strip_blanks ['\x00', 'a'] = ['\x00', 'a']
    ∧ stripBlanksClaim ['\x00', 'a'] = ['a']
    ∧ strip_blanks ['\x00', 'a'] ≠ stripBlanksClaim ['\x00', 'a'] := by
  refine ⟨rfl, rfl, ?_⟩
  decide

/-- C9 (amended): NUL, space, tab, newline, CR, VT, FF and 0xFF are
stripped from the end of each slot; the same characters except NUL are
stripped from the beginning; the stripped text is a contiguous piece of
the slot; and a slot that is empty after stripping is omitted from the
output (every written entry has nonempty text coming from some slot). -/
theorem strip_blanks_amended (s : List Char) :
    (∀ c, (strip_blanks s).head? = some c → c ∉ lstripBlanksSet)
    ∧ (∀ c, (strip_blanks s).getLast? = some c → c ∉ rstripBlanksSet)
    ∧ (∃ l₁ l₂, l₁ ++ strip_blanks s ++ l₂ = s)
    ∧ ∀ (slots : List (List Char)) (i : Nat) (t : List Char),
        (i, t) ∈ dump_info_writes slots → t ≠ [] ∧ ∃ u ∈ slots, t = strip_blanks u := by
  refine ⟨?_, ?_, ?_, ?_⟩
  · intro c h
    have := dropWhile_headq _ _ c h
    simpa using this
  · intro c h
    set rstripped := (s.reverse.dropWhile (fun c => rstripBlanksSet.contains c)).reverse
      with hr
    obtain ⟨u, hu⟩ := dropWhile_eq_suffix (fun c => lstripBlanksSet.contains c) rstripped
    have h2 : rstripped.getLast? = some c := by
      rw [← hu]
      exact suffix_getLastq _ _ _ h
    rw [hr, List.getLast?_reverse] at h2
    have := dropWhile_headq _ _ c h2
    simpa using this
  · obtain ⟨u, hu⟩ := dropWhile_eq_suffix (fun c => lstripBlanksSet.contains c)
      ((s.reverse.dropWhile (fun c => rstripBlanksSet.contains c)).reverse)
    obtain ⟨v, hv⟩ := dropWhile_eq_suffix (fun c => rstripBlanksSet.contains c) s.reverse
    refine ⟨u, v.reverse, ?_⟩
    have hs : (s.reverse.dropWhile (fun c => rstripBlanksSet.contains c)).reverse
        ++ v.reverse = s := by
      have := congrArg List.reverse hv
      simpa using this
    have hstrip : strip_blanks s
        = ((s.reverse.dropWhile (fun c => rstripBlanksSet.contains c)).reverse).dropWhile
            (fun c => lstripBlanksSet.contains c) := rfl
    rw [hstrip, hu]
    exact hs
  · intro slots i t h
    exact dumpInfoGo_mem slots 0 i t h

/-- Witness for C9 (amended) at concrete slots. -/
theorem strip_blanks_amended_witness :
    'a' ∉ lstripBlanksSet
    ∧ (['a'] ≠ [] ∧ ∃ u ∈ [['a']], ['a'] = strip_blanks u) :=
  ⟨(strip_blanks_amended [' ', 'a']).1 'a' (by decide),
   (strip_blanks_amended []).2.2.2 [['a']] 0 ['a'] (by decide)⟩

/-! Hash-table scan: `write_common_part` partitions the hash-table region
into 24-byte entries (`for i in range(len(buf) // 24)`), counts runs of
all-zero entries in `numempty`, flushes the count only when a non-empty
entry is met, prints digest and big-endian entry id for non-empty entries,
and finally prints the trailing `len(buf) % 24` bytes. -/

/-- Big-endian 32-bit value of 4 bytes. -/
def be32 (l : List Nat) : Nat :=
  ((byteAt l 0 * 0x1000000 + byteAt l 1 * 0x10000) + byteAt l 2 * 0x100) + byteAt l 3

/-- Entries of the report produced by the hash-table scan. -/
inductive HashEntry where
  | emptyRun (n : Nat)
  | record (digest : List Nat) (entryId : Nat)
  | trailing (bytes : List Nat)
deriving DecidableEq

/-- The 24-byte slices `buf[i*24 : i*24+24]` for `i in range(len(buf)//24)`. -/
def chunks24Go : Nat → List Nat → List (List Nat)
  | 0, _ => []
  | k + 1, l => l.take 24 :: chunks24Go k (l.drop 24)

def chunks24 (l : List Nat) : List (List Nat) := chunks24Go (l.length / 24) l

/-- The scan loop of `write_common_part` over the 24-byte entries, carrying
the count `numempty` of empty entries not yet reported.  An entry is
non-empty when it has fewer than 24 zero bytes (`entry.count(b"\0") < 24`);
meeting one flushes a positive pending count, then reports the entry's
20-byte digest and big-endian id.  A pending count left at the end of the
loop is never flushed. -/
def scanChunks : List (List Nat) → Nat → List HashEntry
  | [], _ => []
  | e :: rest, numempty =>
    if e.count 0 < 24 then
      (if 0 < numempty then [HashEntry.emptyRun numempty] else [])
        ++ HashEntry.record (e.take 20) (be32 (e.drop 20)) :: scanChunks rest 0
    else scanChunks rest (numempty + 1)

/-- The full hash-table report of `write_common_part`: the scanned entries
followed by the raw trailing remainder `buf[len(buf) - len(buf) % 24:]`. -/
def scanHashTable (buf : List Nat) : List HashEntry :=
  scanChunks (chunks24 buf) 0
    ++ [HashEntry.trailing (buf.drop (buf.length - buf.length % 24))]

/-- An entry is empty when all of its 24 bytes are zero. -/
def isEmptyRec (e : List Nat) : Bool := decide (24 ≤ e.count 0)

theorem dropWhile_length_le {α : Type} (p : α → Bool) (l : List α) :
    (l.dropWhile p).length ≤ l.length := by
  obtain ⟨u, hu⟩ := dropWhile_eq_suffix p l
  have := congrArg List.length hu
  simp only [List.length_append] at this
  omega

/-- Second definition following the amended claim words: emit one count
entry for the maximal leading run of empty entries provided a non-empty
entry follows it, then that entry's digest and id, and continue; a trailing
run of empty entries (not followed by any record) emits nothing. -/
def specGo : Nat → List (List Nat) → List HashEntry
  | _, [] => []
  | k, r :: rest =>
    (if 0 < k then [HashEntry.emptyRun k] else [])
      ++ HashEntry.record (r.take 20) (be32 (r.drop 20))
        :: specGo ((rest.takeWhile isEmptyRec).length) (rest.dropWhile isEmptyRec)
termination_by _ cs => cs.length
decreasing_by
  simp_wf
  have := dropWhile_length_le isEmptyRec rest
  omega

/-- Report described by the amended claim: maximal-run decomposition of the
entry list. -/
def specReport (cs : List (List Nat)) : List HashEntry :=
  specGo ((cs.takeWhile isEmptyRec).length) (cs.dropWhile isEmptyRec)

theorem scanChunks_eq_spec (cs : List (List Nat)) :
    ∀ n, scanChunks cs n
      = specGo (n + (cs.takeWhile isEmptyRec).length) (cs.dropWhile isEmptyRec) := by
  induction cs with
  | nil =>
    intro n
    simp [scanChunks, specGo, List.takeWhile, List.dropWhile]
  | cons c rest ih =>
    intro n
    by_cases hc : c.count 0 < 24
    · have hemp : isEmptyRec c = false := by
        simp only [isEmptyRec, decide_eq_false_iff_not]
        omega
      rw [List.takeWhile_cons_of_neg (by simp [hemp]),
        List.dropWhile_cons_of_neg (by simp [hemp])]
      simp only [scanChunks, hc, if_true, List.length_nil, Nat.add_zero]
      rw [specGo]
      simp only [ih 0, Nat.zero_add]
    · have hemp : isEmptyRec c = true := by
        simp only [isEmptyRec, decide_eq_true_eq]
        omega
      rw [List.takeWhile_cons_of_pos (by simp [hemp]),
        List.dropWhile_cons_of_pos (by simp [hemp])]
      simp only [scanChunks, hc, if_false, List.length_cons]
      rw [ih (n + 1)]
      have e : n + 1 + (rest.takeWhile isEmptyRec).length
          = n + ((rest.takeWhile isEmptyRec).length + 1) := by omega
      rw [e]

/-- Concrete hash table for C4: 3 empty entries, one populated entry
(digest starting with byte 1, entry id 5), then 2 empty entries. -/
def hashBufC4 : List Nat :=
  List.replicate 72 0 ++ ((1 :: List.replicate 19 0) ++ [0, 0, 0, 5])
    ++ List.replicate 48 0

set_option maxRecDepth 4000 in
/-- C4 counterexample: on `hashBufC4` the report is
`{empty:3}, {record}, {trailing ""}` — the final maximal run of 2 empty
entries produces no count entry, contrary to the claim's
`{empty:3}, {record}, {empty:2}`. -/
theorem scanHashTable_cex :
    scanHashTable hashBufC4
      = [HashEntry.emptyRun 3,
         HashEntry.record (1 :: List.replicate 19 0) 5,
         HashEntry.trailing []]
    ∧ HashEntry.emptyRun 2 ∉ scanHashTable hashBufC4 := by
  constructor
  · decide
  · decide

/-- C4 (amended): the hash-table report lists, in table order, one count
entry per maximal run of consecutive empty 24-byte entries that is
followed by a non-empty entry, each non-empty entry's 20-byte digest and
big-endian 4-byte id, and finally the trailing bytes shorter than 24 as a
raw remainder; a trailing run of empty entries produces no count entry. -/
theorem scanHashTable_spec (buf : List Nat) :
    scanHashTable buf
      = specReport (chunks24 buf)
        ++ [HashEntry.trailing (buf.drop (buf.length - buf.length % 24))] := by
  unfold scanHashTable specReport
  rw [scanChunks_eq_spec (chunks24 buf) 0]
  simp only [Nat.zero_add]

/-! Filesystem effects of directory materialization.  `fill_directory`
navigates with `os.chdir("..")` once per "/" of the old path and
`os.chdir(paths[pathind])` whenever the path index changes, creates
directories and writes files by names relative to the current working
directory, and `write_common_part` does `do_mkdir(outname)` followed by
`os.chdir(outname)` before the scan.  The trace below records these
operations in order. -/

/-- Operations on the host filesystem state issued during materialization.
`writeFile` carries the chunk reads that produced the file's bytes. -/
inductive FsEffect where
  | chdirUp
  | chdir (path : List Nat)
  | mkdir (name : List Nat)
  | writeFile (name : List Nat) (chunks : List (Int × Int))
  | utime (name : List Nat) (atime mtime : Nat)
deriving DecidableEq

/-- Number of "/" (byte 47) characters of a path, as
`paths[oldpathind].count("/")`. -/
def countSlash (p : List Nat) : Nat := p.count 47

/-- Lookup in the `paths` dictionary (most recent binding first).  Python
raises `KeyError` for a missing index; the model returns the empty path,
and nothing below depends on that case. -/
def lookupPath (paths : List (Nat × List Nat)) (i : Nat) : List Nat :=
  match paths.find? (fun q => q.1 == i) with
  | some q => q.2
  | none => []

/-- The materialization loop of `fill_directory` as an effect trace: per
record, after the sentinel test and (when materialization is enabled) the
validation of `processRecord`, it emits the chdir navigation on a path
index change, then either a mkdir (registering the new path under the loop
index) or a file write of the chunked reads, then the timestamp
application; after the loop it pops back to the root with one chdirUp per
"/" of the current path. -/
def fillDirGo (contents : List Nat) (makedir : Bool) (start offset : Nat) :
    Nat → Nat → List (Nat × List Nat) → Nat → List FsEffect
  | 0, _, paths, old =>
    List.replicate (countSlash (lookupPath paths old)) FsEffect.chdirUp
  | fuel + 1, i, paths, old =>
    if nameLenByte contents i = 0 then
      List.replicate (countSlash (lookupPath paths old)) FsEffect.chdirUp
    else if makedir = false then
      fillDirGo contents makedir start offset fuel (i + 1) paths old
    else
      match processRecord (decodeRecord (dirChunk contents i)) with
      | RecordOutcome.skipped _ =>
        fillDirGo contents makedir start offset fuel (i + 1) paths old
      | RecordOutcome.materialized =>
        let r := decodeRecord (dirChunk contents i)
        let name := r.name.take (effNameLen r.namelen)
        let changeEffs : List FsEffect :=
          if r.pathind ≠ old then
            List.replicate (countSlash (lookupPath paths old)) FsEffect.chdirUp
              ++ [FsEffect.chdir (lookupPath paths r.pathind)]
          else []
        let old2 := if r.pathind ≠ old then r.pathind else old
        if r.namelen &&& 0x80 = 0x80 then
          changeEffs ++ FsEffect.mkdir name
            :: FsEffect.utime name r.dati2 r.dati1
            :: fillDirGo contents makedir start offset fuel (i + 1)
                ((i, lookupPath paths r.pathind ++ name ++ [47]) :: paths) old2
        else
          changeEffs ++ FsEffect.writeFile name
              (readFileChunks ((r.startclust * 0x1000 + start : Nat) : Int) r.startclust
                (r.filelen : Int) offset)
            :: FsEffect.utime name r.dati2 r.dati1
            :: fillDirGo contents makedir start offset fuel (i + 1) paths old2

/-- Effect trace of one `fill_directory` call: the scan starts at record 0
with `paths = {0xFFFF: ""}` and `oldpathind = 0xFFFF`. -/
def fillDirEffects (contents : List Nat) (firstclust : Nat) (makedir : Bool)
    (start offset : Nat) : List FsEffect :=
  fillDirGo contents makedir start offset (dirLimit firstclust) 0 [(0xFFFF, [])] 0xFFFF

/-- Effect trace of the directory phase of `write_common_part`: with
overwrite permission it creates the output directory, changes into it, and
runs `fill_directory`. -/
def writeCommonDirPhase (contents outname : List Nat) (firstclust : Nat)
    (makedir : Bool) (start offset : Nat) : List FsEffect :=
  (if makedir then [FsEffect.mkdir outname, FsEffect.chdir outname] else [])
    ++ fillDirEffects contents firstclust makedir start offset

/-- Concrete directory blob for C8: record 0 is a directory named "D"
(byte 68) at the root, record 1 is a file named "F" (byte 70) inside it
(path index 0), record 2 is the end sentinel. -/
def dirBlobC8 : List Nat :=
  ([68] ++ List.replicate 39 0
    ++ [0x81, 1, 0, 0, 1, 0, 0, 0, 0, 0, 0xFF, 0xFF] ++ List.replicate 12 0)
  ++ ([70] ++ List.replicate 39 0
    ++ [1, 1, 0, 0, 1, 0, 0, 1, 0, 0, 0, 0] ++ [0, 0, 0, 10] ++ List.replicate 8 0)

set_option maxRecDepth 8000 in
/-- C8 counterexample: on `dirBlobC8` the materialization trace contains
working-directory changes — `write_common_part` chdirs into the output
directory, and `fill_directory` chdirs into "D/" when the file record's
path index differs from the previous record's. -/
theorem fill_directory_chdir_cex :
    FsEffect.chdir [68, 47] ∈ fillDirEffects dirBlobC8 1 true 0xC000 0x1000
    ∧ FsEffect.chdir [100] ∈ writeCommonDirPhase dirBlobC8 [100] 1 true 0xC000 0x1000 := by
  constructor
  · decide
  · decide

/-- C8 (amended): directory-tree materialization does change the host
process's working directory: whenever materialization is enabled the trace
contains a chdir into the output directory, and file and directory writes
carry names relative to the current working directory rather than fully
resolved paths. -/
theorem materialization_changes_cwd (contents outname : List Nat)
    (firstclust start offset : Nat) :
    FsEffect.chdir outname ∈ writeCommonDirPhase contents outname firstclust true start offset := by
  unfold writeCommonDirPhase
  simp

end Extract360
